import Mathlib

/-!
Verification of the sharded random-access layer of `dival`
(`src/dival/datasets/lodopab_dataset.py`, class `LoDoPaBDataset`).

The embedding below models:
* the per-shard slice decomposition computed by `get_samples`
  (lines 437-459 of the source), parameterised over the shard size
  `N` (= `NUM_SAMPLES_PER_FILE` in the source);
* the key resolution and validation of `get_samples` (lines 418-438);
* the observation transform family `__get_observation_trafo`
  (lines 196-224), elementwise over a linearly ordered field, with the
  exponential / logarithm and the constant `MU_MAX` passed as parameters
  (`MU_MAX` is imported from `dival.util.constants`, which is outside the
  files under verification, so it stays an indeterminate parameter);
* `get_sample` (lines 287-370) and `get_samples` (lines 372-488),
  with the shard store abstracted as a total map from global row index
  to the stored row, and a log of the shard files each call reads.

Python `//` and `%` on integers are floor division and floor modulus;
for positive divisors these agree with `Int.ediv` / `Int.emod`, which is
what all divisors occurring here are.
-/

namespace Dival

/-- `intRange' s st n` is the arithmetic progression
`[s, s + st, ..., s + (n-1)*st]` over `Int`. -/
def intRange' (s st : Int) : Nat → List Int
  | 0 => []
  | n + 1 => s :: intRange' (s + st) st n

/-- Source line 19: `NUM_SAMPLES_PER_FILE = 128`. -/
def NUM_SAMPLES_PER_FILE : Int := 128

/-- Shard id and offset of a logical index (source lines 342-343):
`file_index = index // NUM_SAMPLES_PER_FILE`,
`index_in_file = index % NUM_SAMPLES_PER_FILE`; shard size kept
as a parameter `N`. -/
def fileIndex (N index : Int) : Int := index / N

/-- Offset inside the shard file, source line 343. -/
def indexInFile (N index : Int) : Int := index % N

/-- In-shard slice start for shard `i` (source lines 445-448):
`start % N` for the first touched shard, else `(start - i*N) % step`. -/
def sliceStart (N step start i : Int) : Int :=
  if i = start / N then start % N else (start - i * N) % step

/-- In-shard slice stop for shard `i` (source lines 449-454):
`last % N + 1` for the last touched shard, else
`((start - (i+1)*N) % step - step) % N + 1`. -/
def sliceStop (N step start last i : Int) : Int :=
  if i = last / N then last % N + 1
  else ((start - (i + 1) * N) % step - step) % N + 1

/-- `len_slice = ceil((stop - start) / step)` (source line 457),
clamped to `Nat` (a nonpositive value means an empty slice). -/
def sliceLen (step s e : Int) : Nat := ((e - s + step - 1) / step).toNat

/-- The global row indices selected from shard `i` by the slice the code
builds for it, in slice order (source lines 444-456: the rows
`start, start+step, ... < stop` of shard `i`, i.e. globals `i*N + o`). -/
def shardSel (N step start last i : Int) : List Int :=
  (intRange' (sliceStart N step start i) step
      (sliceLen step (sliceStart N step start i) (sliceStop N step start last i))).map
    (fun o => i * N + o)

/-- The consecutive shard ids `[f, f+1, ..., f+k-1]`, i.e. the Python
`range(f, f+k)` as a list of integers. -/
def fileList (f : Int) : Nat → List Int
  | 0 => []
  | k + 1 => f :: fileList (f + 1) k

/-- `range_files = range(range_[0] // N, range_[-1] // N + 1)`
(source lines 437-438). -/
def rangeFiles (N start last : Int) : List Int :=
  fileList (start / N) ((last / N - start / N).toNat + 1)

/-- All global row indices read by `get_samples` for the strided range
whose first element is `start` and last element is `last`, concatenated
in shard order (the concatenation realised through `slices_data`,
source lines 441-459). -/
def getSamplesIdx (N step start last : Int) : List Int :=
  (rangeFiles N start last).flatMap (shardSel N step start last)

/-- Number of elements of the Python range `range(a, b, s)` for `s > 0`:
`max 0 (ceil((b - a) / s))`. -/
def rangeLen (a b s : Int) : Nat := (((b - a + s - 1) / s)).toNat

/-- A `get_samples` key: either a `slice` (any field may be `None`) or a
`range` object. A Python `range` always has nonzero step (`range`
construction rejects step 0 before `get_samples` is ever entered). -/
inductive Key where
  | slice (start stop step : Option Int)
  | range (start stop step : Int)

/-- Key resolution of `get_samples` (source lines 419-430): a slice is
resolved against the partition length (negative endpoints count from the
end, clamped at 0), and its step defaults to 1 via `key.step or 1` —
which also turns an explicit step of `0` into `1`, since `0` is falsy.
A range is taken as is. Returns `(start, stop, step)`. -/
def resolveKey (len_part : Int) : Key → Int × Int × Int
  | Key.slice ks kp kstep =>
      let key_start := match ks with
        | none => 0
        | some v => if 0 ≤ v then v else max 0 (len_part + v)
      let key_stop := match kp with
        | none => len_part
        | some v => if 0 ≤ v then v else max 0 (len_part + v)
      let step := match kstep with
        | none => 1
        | some v => if v = 0 then 1 else v
      (key_start, key_stop, step)
  | Key.range a b s => (a, b, s)

/-- Source line 20: `PHOTONS_PER_PIXEL = 4096`. -/
def PHOTONS_PER_PIXEL (R : Type) [LinearOrderedField R] : R := 4096

/-- Source line 21: `ORIG_MIN_PHOTON_COUNT = 0.1`. -/
def ORIG_MIN_PHOTON_COUNT (R : Type) [LinearOrderedField R] : R := 0.1

/-- The observation-model configuration fixed at construction:
`post_log` (source lines 135-141) and `min_photon_count`
(source lines 142-147). -/
structure Config (R : Type) where
  post_log : Bool
  min_photon_count : Option R

/-- `thres0 = 0.5 * (-log(ORIG_MIN_PHOTON_COUNT/PHOTONS_PER_PIXEL)
- log(1/PHOTONS_PER_PIXEL)) / MU_MAX` (source lines 210-212). -/
def thres0 (R : Type) [LinearOrderedField R] (log : R → R) (μ : R) : R :=
  0.5 * (-log (ORIG_MIN_PHOTON_COUNT R / PHOTONS_PER_PIXEL R)
    - log (1 / PHOTONS_PER_PIXEL R)) / μ

/-- Elementwise action of the transform returned by
`__get_observation_trafo` (source lines 196-224).  The four cases:
* default floor (`min_photon_count` is `None` or equals
  `ORIG_MIN_PHOTON_COUNT`), post-log: no-op;
* default floor, pre-log: `v ↦ exp(-(v * MU_MAX))`;
* custom floor, post-log: entries `≥ thres0` are replaced by
  `-log(min_photon_count / PHOTONS_PER_PIXEL) / MU_MAX`;
* custom floor, pre-log: the mask is computed on the raw value, the
  whole buffer is exponentiated, then masked entries are overwritten
  with `min_photon_count / PHOTONS_PER_PIXEL`.
`exp`, `log` and `μ` (= `MU_MAX`, a constant from
`dival.util.constants`, outside the verified files) are parameters. -/
def observation_trafo (R : Type) [LinearOrderedField R] (exp log : R → R) (μ : R)
    (cfg : Config R) (v : R) : R :=
  match cfg.min_photon_count with
  | none => if cfg.post_log then v else exp (-(v * μ))
  | some m =>
      if m = ORIG_MIN_PHOTON_COUNT R then
        (if cfg.post_log then v else exp (-(v * μ)))
      else
        if cfg.post_log then
          (if thres0 R log μ ≤ v then -log (m / PHOTONS_PER_PIXEL R) / μ else v)
        else
          (if thres0 R log μ ≤ v then m / PHOTONS_PER_PIXEL R else exp (-(v * μ)))

/-- The transform applied in place to a whole observation buffer
(`observation_trafo(obs)` mutates every entry independently). -/
def observationTrafoBuf (R : Type) [LinearOrderedField R] (exp log : R → R) (μ : R)
    (cfg : Config R) (buf : List R) : List R :=
  buf.map (observation_trafo R exp log μ cfg)

/-- The read-only shard store, abstracted as total maps from the global
row index to the stored row: shard file `i` holds the rows
`[i*N, (i+1)*N)` in order, so row `o` of shard `i` is global `i*N + o`. -/
structure Store (R : Type) where
  obs : Int → List R
  gt : Int → List R

/-- One component of the `out` pair: `True` (allocate a fresh buffer),
`False` (skip the field), or a caller-supplied buffer to write into
(source lines 344-351 and 461-470; a buffer or a fresh allocation
receive exactly the same values). -/
inductive OutOpt (R : Type) where
  | tru
  | fls
  | buffer (b : List R)

/-- Whether this `out` component causes the field to be read. -/
def OutOpt.wants {R : Type} : OutOpt R → Bool
  | OutOpt.fls => false
  | _ => true

/-- The Python exceptions the accessor can raise:
`IndexError`, `TypeError` (unpacking `None`), `ValueError`. -/
inductive PyErr where
  | index
  | type
  | value
deriving DecidableEq

/-- Decidable equality on `Except`, so that concrete accessor outcomes
can be checked by evaluation. -/
instance {ε α : Type} [DecidableEq ε] [DecidableEq α] : DecidableEq (Except ε α) := fun x y =>
  match x, y with
  | Except.error a, Except.error b =>
      if h : a = b then isTrue (congrArg Except.error h)
      else isFalse fun hc => h (Except.error.inj hc)
  | Except.ok a, Except.ok b =>
      if h : a = b then isTrue (congrArg Except.ok h)
      else isFalse fun hc => h (Except.ok.inj hc)
  | Except.error _, Except.ok _ => isFalse fun hc => Except.noConfusion hc
  | Except.ok _, Except.error _ => isFalse fun hc => Except.noConfusion hc

/-- Model of `LoDoPaBDataset.get_sample` (source lines 287-370).
Returns the outcome together with the list of shard files read
(the observation file is opened before the ground-truth file).
Steps, in source order:
1. bounds check `index >= len_part or index < -len_part` → `IndexError`
   (lines 335-338);
2. negative-index normalisation `index += len_part` (lines 339-340);
3. unpacking of `out` — `out` defaults to `None`, whose unpacking
   raises `TypeError` (line 341);
4. reads of row `index % N` of shard `index // N` for each requested
   field, and the observation transform on the observation only
   (lines 342-370). -/
def get_sample (R : Type) [LinearOrderedField R] (exp log : R → R) (μ : R)
    (cfg : Config R) (st : Store R) (len_part index : Int)
    (out : Option (OutOpt R × OutOpt R)) :
    Except PyErr (Option (List R) × Option (List R)) × List Int :=
  if len_part ≤ index ∨ index < -len_part then (Except.error PyErr.index, [])
  else
    let idx := if index < 0 then index + len_part else index
    match out with
    | none => (Except.error PyErr.type, [])
    | some (oo, og) =>
        let fi := fileIndex NUM_SAMPLES_PER_FILE idx
        let g := NUM_SAMPLES_PER_FILE * fi + indexInFile NUM_SAMPLES_PER_FILE idx
        let obs := if oo.wants then
            some (observationTrafoBuf R exp log μ cfg (st.obs g)) else none
        let gt := if og.wants then some (st.gt g) else none
        (Except.ok (obs, gt),
          (if oo.wants then [fi] else []) ++ (if og.wants then [fi] else []))

/-- Model of `LoDoPaBDataset.get_samples` (source lines 372-488).
Steps, in source order:
1. key resolution (lines 419-430; a non-slice non-range key raises
   `TypeError`, not modelled since `Key` has only those constructors);
2. `range_.step < 0` → `ValueError` (lines 431-433);
3. `range_[-1]` → `IndexError` on an empty range (line 434);
4. `range_[-1] >= len_part` → `IndexError` (lines 434-436);
5. unpacking of `out`, raising `TypeError` when it is `None`
   (line 439);
6. per-shard slice reads concatenated in shard order via
   `slices_data` (lines 440-488), the observation transform applied
   to the assembled observation batch only. -/
def get_samples (R : Type) [LinearOrderedField R] (exp log : R → R) (μ : R)
    (cfg : Config R) (st : Store R) (len_part : Int) (key : Key)
    (out : Option (OutOpt R × OutOpt R)) :
    Except PyErr (Option (List (List R)) × Option (List (List R))) × List Int :=
  let r := resolveKey len_part key
  let a := r.1
  let b := r.2.1
  let s := r.2.2
  if s < 0 then (Except.error PyErr.value, [])
  else if rangeLen a b s = 0 then (Except.error PyErr.index, [])
  else
    let lastI := a + ((rangeLen a b s : Int) - 1) * s
    if len_part ≤ lastI then (Except.error PyErr.index, [])
    else
      match out with
      | none => (Except.error PyErr.type, [])
      | some (oo, og) =>
          let sel := getSamplesIdx NUM_SAMPLES_PER_FILE s a lastI
          let files := rangeFiles NUM_SAMPLES_PER_FILE a lastI
          let obs := if oo.wants then
              some (sel.map (fun g => observationTrafoBuf R exp log μ cfg (st.obs g)))
            else none
          let gt := if og.wants then some (sel.map st.gt) else none
          (Except.ok (obs, gt),
            (if oo.wants then files else []) ++ (if og.wants then files else []))

/-- Proof-side abbreviation: the smallest integer `≥ M` congruent to
`start` modulo `step` (for `step > 0`). -/
def firstMem (step start M : Int) : Int := M + (start - M) % step

/-! ### Basic lemmas about `intRange'` and `fileList` -/

theorem intRange'_map_add (a s st : Int) (n : Nat) :
    (intRange' s st n).map (fun o => a + o) = intRange' (a + s) st n := by
  induction n generalizing s with
  | zero => rfl
  | succ n ih =>
      simp only [intRange', List.map_cons, ih]
      rw [add_assoc]

theorem intRange'_append (s st : Int) (m n : Nat) :
    intRange' s st (m + n) = intRange' s st m ++ intRange' (s + st * m) st n := by
  induction m generalizing s with
  | zero => simp [intRange']
  | succ m ih =>
      have hcast : s + st * ((m : Int) + 1) = (s + st) + st * m := by ring
      simp only [Nat.succ_add, intRange', List.cons_append, ih (s + st)]
      push_cast
      rw [hcast]

theorem fileList_one (f : Int) : fileList f 1 = [f] := rfl

theorem fileList_succ (f : Int) (k : Nat) : fileList f (k + 1) = f :: fileList (f + 1) k := rfl

/-! ### Integer arithmetic helper lemmas -/

theorem dvd_sub_emod (a b : Int) : b ∣ a - a % b :=
  ⟨a / b, by have h := Int.ediv_add_emod a b; linarith⟩

theorem nonneg_of_dvd_of_neg_lt {step d : Int} (hstep : 0 < step) (h : step ∣ d)
    (h1 : -step < d) : 0 ≤ d := by
  obtain ⟨t, rfl⟩ := h
  have ht : -1 < t := by
    by_contra hc
    push_neg at hc
    have : step * t ≤ step * (-1) := by
      exact mul_le_mul_of_nonneg_left hc hstep.le
    linarith
  have ht' : 0 ≤ t := by omega
  exact mul_nonneg hstep.le ht'

theorem eq_zero_of_dvd_of_bounds {step d : Int} (hstep : 0 < step) (h : step ∣ d)
    (h1 : -step < d) (h2 : d < step) : d = 0 := by
  have h0 : 0 ≤ d := nonneg_of_dvd_of_neg_lt hstep h h1
  obtain ⟨t, rfl⟩ := h
  have ht0 : 0 ≤ t := nonneg_of_mul_nonneg_right h0 hstep
  have ht1 : t < 1 := by
    by_contra hc
    push_neg at hc
    have : step * 1 ≤ step * t := mul_le_mul_of_nonneg_left hc hstep.le
    linarith
  have : t = 0 := by omega
  simp [this]

theorem emod_eq_of_dvd_sub {step x y : Int} (hstep : 0 < step) (h : step ∣ x - y)
    (h0 : 0 ≤ y) (h1 : y < step) : x % step = y := by
  have hd : step ∣ x % step - y := by
    have h2 : step ∣ x % step - x := by
      have h3 := (dvd_sub_emod x step).neg_right
      rwa [neg_sub] at h3
    have := dvd_add h2 h
    have heq : x % step - x + (x - y) = x % step - y := by ring
    rwa [heq] at this
  have hb1 : -step < x % step - y := by
    have := Int.emod_nonneg x hstep.ne'
    linarith
  have hb2 : x % step - y < step := by
    have := Int.emod_lt_of_pos x hstep
    linarith
  have := eq_zero_of_dvd_of_bounds hstep hd hb1 hb2
  linarith

theorem ediv_nonpos_of_lt {x step : Int} (hstep : 0 < step) (h : x < step) :
    x / step ≤ 0 := by
  by_contra hc
  push_neg at hc
  have h1 : (1 : Int) ≤ x / step := hc
  have h2 := Int.ediv_add_emod x step
  have h3 := Int.emod_nonneg x hstep.ne'
  have h4 : step * 1 ≤ step * (x / step) := mul_le_mul_of_nonneg_left h1 hstep.le
  linarith

/-! ### Facts about `firstMem` -/

theorem firstMem_ge (step start M : Int) (hstep : 0 < step) :
    M ≤ firstMem step start M :=
  le_add_of_nonneg_right (Int.emod_nonneg _ hstep.ne')

theorem firstMem_lt (step start M : Int) (hstep : 0 < step) :
    firstMem step start M < M + step :=
  add_lt_add_left (Int.emod_lt_of_pos _ hstep) M

theorem dvd_firstMem_sub (step start M : Int) :
    step ∣ firstMem step start M - start := by
  obtain ⟨c, hc⟩ := dvd_sub_emod (start - M) step
  exact ⟨-c, by simp only [firstMem]; linarith [hc]⟩

theorem firstMem_le {step start M y : Int} (hstep : 0 < step) (hy : M ≤ y)
    (hdvd : step ∣ y - start) : firstMem step start M ≤ y := by
  have hd : step ∣ y - firstMem step start M := by
    have h1 := (dvd_firstMem_sub step start M).neg_right
    have h2 := dvd_add hdvd h1
    have heq : y - start + -(firstMem step start M - start) = y - firstMem step start M := by
      ring
    rwa [heq] at h2
  have hb : -step < y - firstMem step start M := by
    have := firstMem_lt step start M hstep
    linarith
  have := nonneg_of_dvd_of_neg_lt hstep hd hb
  linarith

theorem firstMem_mono {step start M M2 : Int} (hstep : 0 < step) (h : M ≤ M2) :
    firstMem step start M ≤ firstMem step start M2 :=
  firstMem_le hstep (le_trans h (firstMem_ge step start M2 hstep))
    (dvd_firstMem_sub step start M2)

theorem firstMem_eq_of_le {step start M M2 : Int} (hstep : 0 < step) (h12 : M ≤ M2)
    (h2 : M2 ≤ firstMem step start M) : firstMem step start M2 = firstMem step start M :=
  le_antisymm (firstMem_le hstep h2 (dvd_firstMem_sub step start M))
    (firstMem_mono hstep h12)

/-! ### The slice built for each touched shard selects exactly the
progression members that lie in that shard.

Each of the four following lemmas computes `shardSel` for one position of
the shard among the touched ones (only / first / middle / last) and
rewrites it as a contiguous stretch of the arithmetic progression. -/

theorem sliceLen_eq (step s e : Int) : sliceLen step s e = ((e - s + step - 1) / step).toNat :=
  rfl

theorem shardSel_single (N step start last : Int) (hfL : start / N = last / N) :
    shardSel N step start last (start / N)
      = intRange' start step (((last + step - start) / step).toNat) := by
  have hs : sliceStart N step start (start / N) = start % N := by
    simp [sliceStart]
  have he : sliceStop N step start last (start / N) = last % N + 1 := by
    simp [sliceStop, hfL]
  have h1 := Int.ediv_add_emod start N
  have h2 := Int.ediv_add_emod last N
  unfold shardSel
  rw [hs, he, intRange'_map_add, sliceLen_eq]
  have hhead : start / N * N + start % N = start := by linear_combination h1
  have hnum : last % N + 1 - start % N + step - 1 = last + step - start := by
    have hfl : N * (start / N) = N * (last / N) := by rw [hfL]
    linear_combination h2 - h1 + hfl
  rw [hhead, hnum]

theorem shardSel_last (N step start last : Int) (hfL : start / N < last / N) :
    shardSel N step start last (last / N)
      = intRange' (firstMem step start (last / N * N)) step
          (((last + step - firstMem step start (last / N * N)) / step).toNat) := by
  have hne : last / N ≠ start / N := by omega
  have hs : sliceStart N step start (last / N) = (start - last / N * N) % step := by
    simp [sliceStart, hne]
  have he : sliceStop N step start last (last / N) = last % N + 1 := by
    simp [sliceStop]
  have h2 := Int.ediv_add_emod last N
  unfold shardSel
  rw [hs, he, intRange'_map_add, sliceLen_eq]
  have hfm : firstMem step start (last / N * N) = last / N * N + (start - last / N * N) % step :=
    rfl
  rw [hfm]
  have hnum : last % N + 1 - (start - last / N * N) % step + step - 1
      = last + step - (last / N * N + (start - last / N * N) % step) := by
    linear_combination h2
  rw [hnum]

theorem shardSel_first_mid (N step start last : Int) (hN : 0 < N) (hstep : 0 < step)
    (hfL : start / N < last / N) :
    shardSel N step start last (start / N)
      = intRange' start step
          (((firstMem step start ((start / N + 1) * N) - start) / step).toNat) := by
  have hne : start / N ≠ last / N := by omega
  have hs : sliceStart N step start (start / N) = start % N := by
    simp [sliceStart]
  have he0 : sliceStop N step start last (start / N)
      = ((start - (start / N + 1) * N) % step - step) % N + 1 := by
    simp [sliceStop, hne]
  set r1 := (start - (start / N + 1) * N) % step with hr1def
  have hr10 : 0 ≤ r1 := Int.emod_nonneg _ hstep.ne'
  have hr1lt : r1 < step := Int.emod_lt_of_pos _ hstep
  have h1 := Int.ediv_add_emod start N
  have h2 := Int.emod_nonneg start hN.ne'
  have h3 := Int.emod_lt_of_pos start hN
  have hfm1 : firstMem step start ((start / N + 1) * N) = (start / N + 1) * N + r1 := rfl
  have hdvd1 : step ∣ ((start / N + 1) * N + r1) - start := by
    have h4 := dvd_firstMem_sub step start ((start / N + 1) * N)
    rwa [hfm1] at h4
  have hc : (start / N + 1) * N = N * (start / N) + N := by ring
  have hgt : start < (start / N + 1) * N := by linarith
  have hstep_le : step ≤ ((start / N + 1) * N + r1) - start :=
    Int.le_of_dvd (by linarith) hdvd1
  have hemod : (r1 - step) % N = r1 - step + N := by
    apply emod_eq_of_dvd_sub hN ⟨-1, by ring⟩
    · linarith
    · linarith
  unfold shardSel
  rw [hs, he0, hemod, intRange'_map_add, sliceLen_eq, hfm1]
  have hhead : start / N * N + start % N = start := by linear_combination h1
  have hnum : r1 - step + N + 1 - start % N + step - 1 = (start / N + 1) * N + r1 - start := by
    linear_combination -h1
  rw [hhead, hnum]

theorem shardSel_mid (N step start last i : Int) (hN : 0 < N) (hstep : 0 < step)
    (hfi : start / N < i) (hiL : i < last / N) :
    shardSel N step start last i
      = intRange' (firstMem step start (i * N)) step
          (((firstMem step start ((i + 1) * N) - firstMem step start (i * N)) / step).toNat) := by
  have hne1 : i ≠ start / N := by omega
  have hne2 : i ≠ last / N := by omega
  set r := (start - i * N) % step with hrdef
  set r1 := (start - (i + 1) * N) % step with hr1def
  have hr0 : 0 ≤ r := Int.emod_nonneg _ hstep.ne'
  have hrlt : r < step := Int.emod_lt_of_pos _ hstep
  have hr10 : 0 ≤ r1 := Int.emod_nonneg _ hstep.ne'
  have hr1lt : r1 < step := Int.emod_lt_of_pos _ hstep
  have hfm : firstMem step start (i * N) = i * N + r := rfl
  have hfm1 : firstMem step start ((i + 1) * N) = (i + 1) * N + r1 := rfl
  have hs : sliceStart N step start i = r := by
    simp [sliceStart, hne1]
  have he0 : sliceStop N step start last i = (r1 - step) % N + 1 := by
    simp [sliceStop, hne2]
  have hNN : (i + 1) * N = i * N + N := by ring
  have hdvd_a : step ∣ (i * N + r) - start := by
    have h4 := dvd_firstMem_sub step start (i * N)
    rwa [hfm] at h4
  have hdvd_a1 : step ∣ ((i + 1) * N + r1) - start := by
    have h4 := dvd_firstMem_sub step start ((i + 1) * N)
    rwa [hfm1] at h4
  by_cases hcase : r < N
  · -- shard `i` contains at least one selected row
    have hdvd_d : step ∣ ((i + 1) * N + r1) - (i * N + r) := by
      have h4 := dvd_sub hdvd_a1 hdvd_a
      have heq : ((i + 1) * N + r1 - start) - (i * N + r - start)
          = ((i + 1) * N + r1) - (i * N + r) := by ring
      rwa [heq] at h4
    have haa1 : step ≤ ((i + 1) * N + r1) - (i * N + r) :=
      Int.le_of_dvd (by linarith) hdvd_d
    have hemod : (r1 - step) % N = r1 - step + N := by
      apply emod_eq_of_dvd_sub hN ⟨-1, by ring⟩
      · linarith
      · linarith
    unfold shardSel
    rw [hs, he0, hemod, intRange'_map_add, sliceLen_eq, hfm, hfm1]
    have hnum : r1 - step + N + 1 - r + step - 1 = (i + 1) * N + r1 - (i * N + r) := by
      linear_combination
    rw [hnum]
  · -- shard `i` is skipped: no progression member lies in it
    push_neg at hcase
    have ha1a : firstMem step start ((i + 1) * N) = firstMem step start (i * N) := by
      apply firstMem_eq_of_le hstep (by linarith)
      rw [hfm]
      linarith
    have hcount : sliceLen step (sliceStart N step start i) (sliceStop N step start last i)
        = 0 := by
      rw [hs, he0, sliceLen_eq]
      have hb : (r1 - step) % N < N := Int.emod_lt_of_pos _ hN
      apply Int.toNat_of_nonpos
      apply ediv_nonpos_of_lt hstep
      linarith
    unfold shardSel
    rw [hcount, ha1a, hfm]
    simp [intRange']

/-! ### Gluing consecutive stretches of the progression -/

theorem intRange'_glue {step : Int} (a x y : Int) (hstep : 0 < step) (hx : step ∣ x)
    (hy : step ∣ y) (hx0 : 0 ≤ x) (hy0 : 0 ≤ y) :
    intRange' a step ((x / step).toNat) ++ intRange' (a + x) step ((y / step).toNat)
      = intRange' a step (((x + y) / step).toNat) := by
  obtain ⟨p, hp⟩ := hx
  obtain ⟨q, hq⟩ := hy
  have hp0 : 0 ≤ p := nonneg_of_mul_nonneg_right (by rw [← hp]; exact hx0) hstep
  have hq0 : 0 ≤ q := nonneg_of_mul_nonneg_right (by rw [← hq]; exact hy0) hstep
  have e1 : x / step = p := by rw [hp]; exact Int.mul_ediv_cancel_left p hstep.ne'
  have e2 : y / step = q := by rw [hq]; exact Int.mul_ediv_cancel_left q hstep.ne'
  have e3 : (x + y) / step = p + q := by
    rw [hp, hq, ← mul_add]; exact Int.mul_ediv_cancel_left _ hstep.ne'
  rw [e1, e2, e3, Int.toNat_add hp0 hq0, intRange'_append]
  congr 2
  rw [Int.toNat_of_nonneg hp0, ← hp]

/-- The suffix of the shard-by-shard decomposition, from an arbitrary
touched shard `i` after the first one up to the last touched shard,
covers exactly the progression members from the first member `≥ i*N`
through the last member. -/
theorem bindTail (N step start last : Int) (hN : 0 < N) (hstep : 0 < step)
    (hdvd : step ∣ last - start) (k : Nat) :
    ∀ i : Int, start / N < i → i + (k : Int) = last / N →
      (fileList i (k + 1)).flatMap (shardSel N step start last)
        = intRange' (firstMem step start (i * N)) step
            (((last + step - firstMem step start (i * N)) / step).toNat) := by
  induction k with
  | zero =>
      intro i hfi hiL
      have hil : i = last / N := by omega
      subst hil
      rw [fileList_one]
      simp only [List.flatMap_cons, List.flatMap_nil, List.append_nil]
      exact shardSel_last N step start last hfi
  | succ k ih =>
      intro i hfi hiL
      have hiL' : i < last / N := by omega
      rw [fileList_succ, List.flatMap_cons]
      rw [shardSel_mid N step start last i hN hstep hfi hiL']
      rw [ih (i + 1) (by omega) (by omega)]
      have d1 := dvd_firstMem_sub step start (i * N)
      have d2 := dvd_firstMem_sub step start ((i + 1) * N)
      set A := firstMem step start (i * N) with hA
      set A1 := firstMem step start ((i + 1) * N) with hA1
      have hx : step ∣ A1 - A := by
        have h4 := dvd_sub d2 d1
        rwa [(by ring : (A1 - start) - (A - start) = A1 - A)] at h4
      have hy : step ∣ last + step - A1 := by
        have h4 := dvd_add (dvd_refl step) (dvd_sub hdvd d2)
        rwa [(by ring : step + ((last - start) - (A1 - start)) = last + step - A1)] at h4
      have hx0 : 0 ≤ A1 - A := by
        have h4 : i * N ≤ (i + 1) * N := by nlinarith
        have := @firstMem_mono step start (i * N) ((i + 1) * N) hstep h4
        rw [← hA, ← hA1] at this
        linarith
      have hy0 : 0 ≤ last + step - A1 := by
        have hL : i + 1 ≤ last / N := by omega
        have h5 : (i + 1) * N ≤ last / N * N :=
          mul_le_mul_of_nonneg_right hL hN.le
        have h6 := Int.ediv_add_emod last N
        have h7 := Int.emod_nonneg last hN.ne'
        have h8 : (i + 1) * N ≤ last := by
          have hc : last / N * N = N * (last / N) := by ring
          linarith
        have h9 : A1 ≤ last := by
          rw [hA1]
          exact firstMem_le hstep h8 hdvd
        linarith
      have hglue := intRange'_glue A (A1 - A) (last + step - A1) hstep hx hy hx0 hy0
      rw [(by ring : A + (A1 - A) = A1)] at hglue
      rw [hglue, (by ring : A1 - A + (last + step - A1) = last + step - A)]

/-- The full shard-by-shard decomposition of `get_samples` selects
exactly the arithmetic progression from `start` to `last` with stride
`step` (`(last + step - start) / step` is its number of elements). -/
theorem getSamplesIdx_eq (N step start last : Int) (hN : 0 < N) (hstep : 0 < step)
    (hdvd : step ∣ last - start) (hle : start ≤ last) :
    getSamplesIdx N step start last
      = intRange' start step (((last + step - start) / step).toNat) := by
  have hfL : start / N ≤ last / N := Int.ediv_le_ediv hN hle
  unfold getSamplesIdx rangeFiles
  rcases eq_or_lt_of_le hfL with heq | hlt
  · rw [← heq]
    have h0 : (start / N - start / N).toNat = 0 := by simp
    rw [h0, fileList_one]
    simp only [List.flatMap_cons, List.flatMap_nil, List.append_nil]
    exact shardSel_single N step start last heq
  · have hk : (last / N - start / N).toNat = (last / N - (start / N + 1)).toNat + 1 := by
      omega
    rw [hk, fileList_succ, List.flatMap_cons]
    rw [shardSel_first_mid N step start last hN hstep hlt]
    rw [bindTail N step start last hN hstep hdvd _ (start / N + 1) (by omega) (by omega)]
    have d2 := dvd_firstMem_sub step start ((start / N + 1) * N)
    set A1 := firstMem step start ((start / N + 1) * N) with hA1
    have hx : step ∣ A1 - start := d2
    have hy : step ∣ last + step - A1 := by
      have h4 := dvd_add (dvd_refl step) (dvd_sub hdvd d2)
      rwa [(by ring : step + ((last - start) - (A1 - start)) = last + step - A1)] at h4
    have h1 := Int.ediv_add_emod start N
    have h2 := Int.emod_nonneg start hN.ne'
    have h3 := Int.emod_lt_of_pos start hN
    have hx0 : 0 ≤ A1 - start := by
      have h4 : start < (start / N + 1) * N := by
        have hc : (start / N + 1) * N = N * (start / N) + N := by ring
        linarith
      have h5 : (start / N + 1) * N ≤ A1 := by
        rw [hA1]
        exact firstMem_ge step start _ hstep
      linarith
    have hy0 : 0 ≤ last + step - A1 := by
      have hL : start / N + 1 ≤ last / N := by omega
      have h5 : (start / N + 1) * N ≤ last / N * N :=
        mul_le_mul_of_nonneg_right hL hN.le
      have h6 := Int.ediv_add_emod last N
      have h7 := Int.emod_nonneg last hN.ne'
      have h8 : (start / N + 1) * N ≤ last := by
        have hc : last / N * N = N * (last / N) := by ring
        linarith
      have h9 : A1 ≤ last := by
        rw [hA1]
        exact firstMem_le hstep h8 hdvd
      linarith
    have hglue := intRange'_glue start (A1 - start) (last + step - A1) hstep hx hy hx0 hy0
    rw [(by ring : start + (A1 - start) = A1)] at hglue
    rw [hglue, (by ring : A1 - start + (last + step - A1) = last + step - start)]

/-! ### Claim theorems -/

/-- Claim C1: for every partition length `plen`, shard size `N ≥ 1`, and
strided range `(start, stop, step)` with `step ≥ 1` and the last index
`start + (stop - start - 1) / step * step` within bounds, the per-shard
slice decomposition computed by `get_samples` (first-shard start
`start % N`; later-shard start `(start - i*N) % step`; last-shard stop
`last % N + 1`; intermediate stops derived from the next shard's
congruent start), concatenated in shard order, selects exactly the
arithmetic progression `start, start + step, ...` up to `stop`
(exclusive), with no duplication or gap: `intRange' start step c` where
`c = (stop - start - 1) / step + 1` is the length of
`range(start, stop, step)`. -/
theorem claim_C1 (plen N step start stop : Int) (hN : 0 < N) (hstep : 0 < step)
    (_hstart : 0 ≤ start) (hlt : start < stop)
    (_hbound : start + (stop - start - 1) / step * step < plen) :
    getSamplesIdx N step start (start + (stop - start - 1) / step * step)
      = intRange' start step (((stop - start - 1) / step).toNat + 1) := by
  set q := (stop - start - 1) / step with hq
  have hq0 : 0 ≤ q := Int.ediv_nonneg (by omega) hstep.le
  have hdvd : step ∣ (start + q * step) - start := ⟨q, by ring⟩
  have hle : start ≤ start + q * step := by
    have := mul_nonneg hq0 hstep.le
    linarith
  have h := getSamplesIdx_eq N step start (start + q * step) hN hstep hdvd hle
  rw [h]
  congr 1
  have e : (start + q * step + step - start) / step = q + 1 := by
    rw [(by ring : start + q * step + step - start = step * (q + 1))]
    exact Int.mul_ediv_cancel_left _ hstep.ne'
  rw [e, Int.toNat_add hq0 (by norm_num)]
  norm_num

theorem claim_C1_witness :
    getSamplesIdx 10 4 3 (3 + ((27 : Int) - 3 - 1) / 4 * 4)
      = intRange' 3 4 ((((27 : Int) - 3 - 1) / 4).toNat + 1) :=
  claim_C1 30 10 4 3 27 (by decide) (by decide) (by decide) (by decide) (by decide)

/-- Claim C4: `get_sample(index, part)` raises an index error if and only
if `index ≥ length` or `index < -length`; moreover, when the index error
is raised, no shard file is read. -/
theorem claim_C4 (R : Type) [LinearOrderedField R] (exp log : R → R) (μ : R)
    (cfg : Config R) (st : Store R) (len_part index : Int)
    (out : Option (OutOpt R × OutOpt R)) :
    ((get_sample R exp log μ cfg st len_part index out).1 = Except.error PyErr.index
      ↔ (len_part ≤ index ∨ index < -len_part))
    ∧ ((len_part ≤ index ∨ index < -len_part) →
        (get_sample R exp log μ cfg st len_part index out).2 = []) := by
  by_cases h : len_part ≤ index ∨ index < -len_part
  · have e1 : get_sample R exp log μ cfg st len_part index out
        = (Except.error PyErr.index, []) := by
      simp only [get_sample, if_pos h]
    rw [e1]
    exact ⟨⟨fun _ => h, fun _ => rfl⟩, fun _ => rfl⟩
  · have h1 : (get_sample R exp log μ cfg st len_part index out).1
        ≠ Except.error PyErr.index := by
      simp only [get_sample, if_neg h]
      rcases out with _ | ⟨oo, og⟩
      · simp
      · simp
    exact ⟨⟨fun habs => absurd habs h1, fun hc => absurd hc h⟩, fun hc => absurd hc h⟩

theorem claim_C4_witness :
    (get_sample Rat id id 1 ⟨true, none⟩ ⟨fun _ => [], fun _ => []⟩ 5 5
        (some (OutOpt.tru, OutOpt.tru))).1 = Except.error PyErr.index
    ∧ (get_sample Rat id id 1 ⟨true, none⟩ ⟨fun _ => [], fun _ => []⟩ 5 (-6)
        (some (OutOpt.tru, OutOpt.tru))).1 = Except.error PyErr.index
    ∧ (get_sample Rat id id 1 ⟨true, none⟩ ⟨fun _ => [], fun _ => []⟩ 5 4
        (some (OutOpt.tru, OutOpt.tru))).1 ≠ Except.error PyErr.index
    ∧ (get_sample Rat id id 1 ⟨true, none⟩ ⟨fun _ => [], fun _ => []⟩ 5 5
        (some (OutOpt.tru, OutOpt.tru))).2 = [] := by
  refine ⟨?_, ?_, ?_, ?_⟩
  · exact (claim_C4 Rat id id 1 ⟨true, none⟩ ⟨fun _ => [], fun _ => []⟩ 5 5
      (some (OutOpt.tru, OutOpt.tru))).1.mpr (Or.inl (by decide))
  · exact (claim_C4 Rat id id 1 ⟨true, none⟩ ⟨fun _ => [], fun _ => []⟩ 5 (-6)
      (some (OutOpt.tru, OutOpt.tru))).1.mpr (Or.inr (by decide))
  · intro habs
    exact (by decide : ¬((5 : Int) ≤ 4 ∨ (4 : Int) < -5))
      ((claim_C4 Rat id id 1 ⟨true, none⟩ ⟨fun _ => [], fun _ => []⟩ 5 4
        (some (OutOpt.tru, OutOpt.tru))).1.mp habs)
  · exact (claim_C4 Rat id id 1 ⟨true, none⟩ ⟨fun _ => [], fun _ => []⟩ 5 5
      (some (OutOpt.tru, OutOpt.tru))).2 (Or.inl (by decide))

/-- Claim C5: for every index `i` with `-length ≤ i < 0`,
`get_sample(i, part)` returns the same result as
`get_sample(i + length, part)` (same values, same error behaviour, same
files read), for every configuration and `out` argument. -/
theorem claim_C5 (R : Type) [LinearOrderedField R] (exp log : R → R) (μ : R)
    (cfg : Config R) (st : Store R) (len_part index : Int)
    (out : Option (OutOpt R × OutOpt R)) (h1 : -len_part ≤ index) (h2 : index < 0) :
    get_sample R exp log μ cfg st len_part index out
      = get_sample R exp log μ cfg st len_part (index + len_part) out := by
  have ha : ¬(len_part ≤ index ∨ index < -len_part) := by omega
  have hb : ¬(len_part ≤ index + len_part ∨ index + len_part < -len_part) := by omega
  simp only [get_sample, if_neg ha, if_neg hb, if_pos h2,
    if_neg (by omega : ¬index + len_part < 0)]

theorem claim_C5_witness :
    get_sample Rat id id 1 ⟨true, none⟩
        ⟨fun g => [(g : Rat)], fun g => [(g : Rat)]⟩ 128 (-1)
        (some (OutOpt.tru, OutOpt.tru))
      = get_sample Rat id id 1 ⟨true, none⟩
        ⟨fun g => [(g : Rat)], fun g => [(g : Rat)]⟩ 128 (-1 + 128)
        (some (OutOpt.tru, OutOpt.tru)) :=
  claim_C5 Rat id id 1 ⟨true, none⟩ ⟨fun g => [(g : Rat)], fun g => [(g : Rat)]⟩
    128 (-1) (some (OutOpt.tru, OutOpt.tru)) (by decide) (by decide)

/-- Claim C3 (counterexample): the claim asserts that a key with step
equal to 0 is invalid and rejected.  In the code, a `slice` key with an
explicit step of `0` is silently coerced to step `1` by the idiom
`key.step or 1` (source line 426, since `0` is falsy in Python), so
`get_samples(slice(0, 2, 0))` succeeds and returns samples 0 and 1
instead of being rejected. -/
theorem claim_C3_counterexample :
    (get_samples Rat id id 1 ⟨true, none⟩
        ⟨fun g => [(g : Rat)], fun g => [(g : Rat)]⟩ 5
        (Key.slice (some 0) (some 2) (some 0)) (some (OutOpt.tru, OutOpt.tru))).1
      = Except.ok (some [[(0 : Rat)], [(1 : Rat)]], some [[(0 : Rat)], [(1 : Rat)]]) := by
  decide

/-- Claim C3 (amended): a range or slice key whose resolved step is
negative raises a `ValueError` (the unsupported-operation error), is
never decomposed, and causes no shard file to be read; a slice key with
step 0 is coerced to step 1 rather than rejected (range keys with step 0
cannot be constructed in Python). -/
theorem claim_C3_thm (R : Type) [LinearOrderedField R] (exp log : R → R) (μ : R)
    (cfg : Config R) (st : Store R) (len_part : Int) (key : Key)
    (out : Option (OutOpt R × OutOpt R))
    (hneg : (resolveKey len_part key).2.2 < 0) :
    get_samples R exp log μ cfg st len_part key out = (Except.error PyErr.value, []) := by
  simp only [get_samples, if_pos hneg]

theorem claim_C3_witness :
    get_samples Rat id id 1 ⟨true, none⟩ ⟨fun _ => [], fun _ => []⟩ 5
        (Key.range 4 0 (-1)) (some (OutOpt.tru, OutOpt.tru))
      = (Except.error PyErr.value, []) :=
  claim_C3_thm Rat id id 1 ⟨true, none⟩ ⟨fun _ => [], fun _ => []⟩ 5
    (Key.range 4 0 (-1)) (some (OutOpt.tru, OutOpt.tru)) (by decide)

/-- Claim C10 (counterexample): the claim asserts that `get_sample`
unpacks `out` into a pair before any other work, which would make a call
with `out = None` and an out-of-range index fail with the unpacking
`TypeError`.  In the code, the index bounds check precedes the
unpacking (source lines 335-341), so such a call raises `IndexError`
instead. -/
theorem claim_C10_counterexample :
    (get_sample Rat id id 1 ⟨true, none⟩ ⟨fun _ => [], fun _ => []⟩ 3 5 none).1
      = Except.error PyErr.index ∧ PyErr.index ≠ PyErr.type := by
  decide

/-- Claim C10 (amended): `out` defaults to `None` in both `get_sample`
and `get_samples`; both operations unpack it into a pair after their
index/range validation but before any shard file is read.  Hence every
call that omits `out` fails with an error (an index/value error or the
unpacking type error) before any shard file is read, and a fresh buffer
is only ever allocated for a field when the caller explicitly passes
`True` for that field. -/
theorem claim_C10_thm (R : Type) [LinearOrderedField R] (exp log : R → R) (μ : R)
    (cfg : Config R) (st : Store R) (len_part index : Int) (key : Key) :
    (∃ e, (get_sample R exp log μ cfg st len_part index none).1 = Except.error e)
    ∧ (get_sample R exp log μ cfg st len_part index none).2 = []
    ∧ (∃ e, (get_samples R exp log μ cfg st len_part key none).1 = Except.error e)
    ∧ (get_samples R exp log μ cfg st len_part key none).2 = [] := by
  refine ⟨?_, ?_, ?_, ?_⟩
  · simp only [get_sample]
    split_ifs
    · exact ⟨PyErr.index, rfl⟩
    · exact ⟨PyErr.type, rfl⟩
  · simp only [get_sample]
    split_ifs <;> rfl
  · simp only [get_samples]
    split_ifs
    · exact ⟨PyErr.value, rfl⟩
    · exact ⟨PyErr.index, rfl⟩
    · exact ⟨PyErr.index, rfl⟩
    · exact ⟨PyErr.type, rfl⟩
  · simp only [get_samples]
    split_ifs <;> rfl

/-- The decomposition of the one-element range `range(i, i+1)` selects
exactly the single global row `i`. -/
theorem getSamplesIdx_singleton (i : Int) :
    getSamplesIdx NUM_SAMPLES_PER_FILE 1 i i = [i] := by
  have h := getSamplesIdx_eq NUM_SAMPLES_PER_FILE 1 i i
    (by norm_num [NUM_SAMPLES_PER_FILE]) one_pos (by simp) le_rfl
  rw [h]
  have e : ((i + 1 - i) / 1 : Int).toNat = 1 := by norm_num
  rw [e]
  rfl

/-- Claim C2 (counterexample): the claim quantifies over every valid
index, and by the relative-indexing rule `index = -1` is valid for
`get_sample`.  But `get_samples(range(-1, 0))` does not normalise the
negative index: it passes the bound check (`range_[-1] = -1 < length`)
and then reads shard `-1 // 128 = -1`, row `-1 % 128 = 127` — a shard
file that does not exist (in this model: the store at global row `-1`),
while `get_sample(-1)` first adds the length and reads row 127.  The two
calls therefore do not return identical values. -/
theorem claim_C2_counterexample :
    (get_sample Rat id id 1 ⟨true, none⟩
        ⟨fun g => [(g : Rat)], fun g => [(g : Rat)]⟩ 128 (-1)
        (some (OutOpt.tru, OutOpt.tru))).1
      = Except.ok (some [(127 : Rat)], some [(127 : Rat)])
    ∧ (get_samples Rat id id 1 ⟨true, none⟩
        ⟨fun g => [(g : Rat)], fun g => [(g : Rat)]⟩ 128
        (Key.range (-1) 0 1) (some (OutOpt.tru, OutOpt.tru))).1
      = Except.ok (some [[(-1 : Rat)]], some [[(-1 : Rat)]])
    ∧ [(-1 : Rat)] ≠ [(127 : Rat)] := by
  refine ⟨by decide, by decide, by decide⟩

/-- Claim C2 (amended): for every valid non-negative index `i`
(`0 ≤ i < length`) and every dataset configuration,
`get_sample(i, part, out=(True, True))` and
`get_samples(range(i, i+1), part, out=(True, True))` return element-wise
identical observation values and identical ground-truth values (for
negative valid indices `get_samples` instead looks up a nonexistent
shard file, so the equivalence is restricted to `i ≥ 0`). -/
theorem claim_C2 (R : Type) [LinearOrderedField R] (exp log : R → R) (μ : R)
    (cfg : Config R) (st : Store R) (len_part index : Int)
    (h0 : 0 ≤ index) (h1 : index < len_part) :
    (get_sample R exp log μ cfg st len_part index (some (OutOpt.tru, OutOpt.tru))).1
      = Except.ok (some (observationTrafoBuf R exp log μ cfg (st.obs index)),
          some (st.gt index))
    ∧ (get_samples R exp log μ cfg st len_part (Key.range index (index + 1) 1)
        (some (OutOpt.tru, OutOpt.tru))).1
      = Except.ok (some [observationTrafoBuf R exp log μ cfg (st.obs index)],
          some [st.gt index]) := by
  have ha : ¬(len_part ≤ index ∨ index < -len_part) := by omega
  constructor
  · simp only [get_sample, if_neg ha, if_neg (show ¬index < 0 by omega),
      fileIndex, indexInFile, OutOpt.wants]
    rw [Int.ediv_add_emod index NUM_SAMPLES_PER_FILE]
    simp
  · have hrl : rangeLen index (index + 1) 1 = 1 := by
      have e : index + 1 - index + 1 - 1 = (1 : Int) := by ring
      rw [rangeLen, e]
      decide
    simp only [get_samples, resolveKey, hrl, Nat.cast_one, sub_self, zero_mul, add_zero,
      OutOpt.wants]
    rw [if_neg (show ¬len_part ≤ index by omega), getSamplesIdx_singleton]
    simp

theorem claim_C2_witness :
    (get_sample Rat id id 1 ⟨true, none⟩
        ⟨fun g => [(g : Rat)], fun g => [(g : Rat)]⟩ 200 130
        (some (OutOpt.tru, OutOpt.tru))).1
      = Except.ok (some (observationTrafoBuf Rat id id 1 ⟨true, none⟩ [(130 : Rat)]),
          some [(130 : Rat)])
    ∧ (get_samples Rat id id 1 ⟨true, none⟩
        ⟨fun g => [(g : Rat)], fun g => [(g : Rat)]⟩ 200
        (Key.range 130 (130 + 1) 1) (some (OutOpt.tru, OutOpt.tru))).1
      = Except.ok (some [observationTrafoBuf Rat id id 1 ⟨true, none⟩ [(130 : Rat)]],
          some [[(130 : Rat)]]) :=
  claim_C2 Rat id id 1 ⟨true, none⟩ ⟨fun g => [(g : Rat)], fun g => [(g : Rat)]⟩
    200 130 (by decide) (by decide)

/-- Claim C9: for every dataset configuration (all of `exp`, `log`, `μ`
and `cfg` are universally quantified) and every valid request, both
`get_sample` and `get_samples` return the ground-truth rows exactly as
stored in the shard files: the observation transform touches only the
observation buffer, and the ground-truth component of the result is the
raw stored data. -/
theorem claim_C9 (R : Type) [LinearOrderedField R] (exp log : R → R) (μ : R)
    (cfg : Config R) (st : Store R) (len_part index : Int) (oo : OutOpt R)
    (h0 : 0 ≤ index) (h1 : index < len_part)
    (key : Key) (a b s : Int) (hk : resolveKey len_part key = (a, b, s)) (hs : 0 ≤ s)
    (hn : rangeLen a b s ≠ 0)
    (hb : a + ((rangeLen a b s : Int) - 1) * s < len_part) :
    (get_sample R exp log μ cfg st len_part index (some (oo, OutOpt.tru))).1.map Prod.snd
      = Except.ok (some (st.gt index))
    ∧ (get_samples R exp log μ cfg st len_part key (some (oo, OutOpt.tru))).1.map Prod.snd
      = Except.ok (some ((getSamplesIdx NUM_SAMPLES_PER_FILE s a
          (a + ((rangeLen a b s : Int) - 1) * s)).map st.gt)) := by
  have ha : ¬(len_part ≤ index ∨ index < -len_part) := by omega
  constructor
  · simp only [get_sample, if_neg ha, if_neg (show ¬index < 0 by omega),
      fileIndex, indexInFile, OutOpt.wants]
    rw [Int.ediv_add_emod index NUM_SAMPLES_PER_FILE]
    simp [Except.map]
  · simp only [get_samples, hk, OutOpt.wants]
    rw [if_neg (not_lt.mpr hs), if_neg hn, if_neg (not_le.mpr hb)]
    simp [Except.map]

theorem claim_C9_witness :
    (get_sample Rat id id 1 ⟨false, some 2⟩
        ⟨fun g => [(g : Rat)], fun g => [(g : Rat)]⟩ 5 2
        (some (OutOpt.fls, OutOpt.tru))).1.map Prod.snd
      = Except.ok (some [(2 : Rat)])
    ∧ (get_samples Rat id id 1 ⟨false, some 2⟩
        ⟨fun g => [(g : Rat)], fun g => [(g : Rat)]⟩ 5
        (Key.range 0 3 1) (some (OutOpt.fls, OutOpt.tru))).1.map Prod.snd
      = Except.ok (some ((getSamplesIdx NUM_SAMPLES_PER_FILE 1 0
          (0 + ((rangeLen 0 3 1 : Int) - 1) * 1)).map
            (Store.gt ⟨fun g => [(g : Rat)], fun g => [(g : Rat)]⟩))) :=
  claim_C9 Rat id id 1 ⟨false, some 2⟩ ⟨fun g => [(g : Rat)], fun g => [(g : Rat)]⟩
    5 2 OutOpt.fls (by decide) (by decide) (Key.range 0 3 1) 0 3 1 (by decide)
    (by decide) (by decide) (by decide)

/-- Claim C6: with `post_log = true` and a custom noise floor
(`min_photon_count = some m`, `m ≠ 0.1`), the observation transform
replaces exactly those entries whose stored value is
`≥ thres0 = 0.5 * (-log(0.1/4096) - log(1/4096)) / MU_MAX` with the
constant `-log(m/4096)/MU_MAX`, and leaves all entries below the
threshold unchanged (stated with the real exponential/logarithm and an
arbitrary value `μ` of the constant `MU_MAX`). -/
theorem claim_C6 (μ m v : ℝ) (hm : m ≠ ORIG_MIN_PHOTON_COUNT ℝ) :
    (thres0 ℝ Real.log μ ≤ v →
        observation_trafo ℝ Real.exp Real.log μ ⟨true, some m⟩ v
          = -Real.log (m / PHOTONS_PER_PIXEL ℝ) / μ)
    ∧ (v < thres0 ℝ Real.log μ →
        observation_trafo ℝ Real.exp Real.log μ ⟨true, some m⟩ v = v) := by
  constructor
  · intro h
    simp [observation_trafo, hm, h]
  · intro h
    simp [observation_trafo, hm, not_le.mpr h]

theorem claim_C6_witness :
    (thres0 ℝ Real.log 1 ≤ thres0 ℝ Real.log 1 →
        observation_trafo ℝ Real.exp Real.log 1 ⟨true, some 2⟩ (thres0 ℝ Real.log 1)
          = -Real.log (2 / PHOTONS_PER_PIXEL ℝ) / 1)
    ∧ (thres0 ℝ Real.log 1 < thres0 ℝ Real.log 1 →
        observation_trafo ℝ Real.exp Real.log 1 ⟨true, some 2⟩ (thres0 ℝ Real.log 1)
          = thres0 ℝ Real.log 1) :=
  claim_C6 1 2 (thres0 ℝ Real.log 1) (by norm_num [ORIG_MIN_PHOTON_COUNT])

/-- Claim C7: with `post_log = false` and the default noise floor
(`min_photon_count` either `None` or equal to `0.1`), the observation
transform maps every stored value `v` to `exp(-v * MU_MAX)`; in
particular a stored value of `0` becomes `1`. -/
theorem claim_C7 (μ : ℝ) (cfg : Config ℝ) (hpost : cfg.post_log = false)
    (hfloor : cfg.min_photon_count = none
      ∨ cfg.min_photon_count = some (ORIG_MIN_PHOTON_COUNT ℝ)) :
    (∀ buf : List ℝ, observationTrafoBuf ℝ Real.exp Real.log μ cfg buf
        = buf.map (fun v => Real.exp (-v * μ)))
    ∧ observation_trafo ℝ Real.exp Real.log μ cfg 0 = 1 := by
  have hval : ∀ v : ℝ, observation_trafo ℝ Real.exp Real.log μ cfg v
      = Real.exp (-v * μ) := by
    intro v
    rcases hfloor with h | h <;> simp [observation_trafo, h, hpost, neg_mul]
  refine ⟨fun buf => ?_, ?_⟩
  · simp [observationTrafoBuf, hval]
  · rw [hval 0]
    simp

theorem claim_C7_witness :
    (∀ buf : List ℝ, observationTrafoBuf ℝ Real.exp Real.log 1 ⟨false, none⟩ buf
        = buf.map (fun v => Real.exp (-v * 1)))
    ∧ observation_trafo ℝ Real.exp Real.log 1 ⟨false, none⟩ 0 = 1 :=
  claim_C7 1 ⟨false, none⟩ rfl (Or.inl rfl)

/-- Claim C8: with `post_log = true` and the default noise floor
(`min_photon_count` either `None` or equal to the original floor
constant `0.1`), the selected observation transform is the identity:
it leaves every input buffer element-wise unchanged. -/
theorem claim_C8 (μ : ℝ) (cfg : Config ℝ) (hpost : cfg.post_log = true)
    (hfloor : cfg.min_photon_count = none
      ∨ cfg.min_photon_count = some (ORIG_MIN_PHOTON_COUNT ℝ))
    (buf : List ℝ) :
    observationTrafoBuf ℝ Real.exp Real.log μ cfg buf = buf := by
  have hval : ∀ v : ℝ, observation_trafo ℝ Real.exp Real.log μ cfg v = v := by
    intro v
    rcases hfloor with h | h <;> simp [observation_trafo, h, hpost]
  rw [observationTrafoBuf, List.map_congr_left (fun v _ => hval v)]
  simp

theorem claim_C8_witness :
    observationTrafoBuf ℝ Real.exp Real.log 1 ⟨true, some (ORIG_MIN_PHOTON_COUNT ℝ)⟩
        [5, 7] = [5, 7] :=
  claim_C8 1 ⟨true, some (ORIG_MIN_PHOTON_COUNT ℝ)⟩ rfl (Or.inr rfl) [5, 7]

end Dival
